import Mathlib

/-!
Verification of the llmrag retrieval-augmented generation pipeline.

This file gives a shallow embedding, in Lean 4, of the core data
transformations of the repository:

* `HtmlTextSplitter.split` (src/llmrag/chunking/html_splitter.py) —
  the greedy chunker over the document-ordered list of text-bearing
  HTML elements;
* `ChromaVectorStore.retrieve` and its section-number extraction and
  exact-match section retrieval (src/llmrag/retrievers/chroma_store.py);
* `RAGPipeline.run` — deduplication, prompt assembly and paragraph-id
  extraction (src/llmrag/pipelines/rag_pipeline.py);
* `ingest_html_file` — the ingestion caching gate
  (src/llmrag/ingestion/ingest_html.py);
* the collection-naming scheme of `ChapterRAG.load_chapter`
  (src/llmrag/chapter_rag.py).

Python strings are modelled as `List Char` (`Str`).  HTML parsing by
lxml is external capability: an HTML input is represented by the
document-ordered list of elements the splitter's xpath query returns,
each with its tag, optional `id` attribute and text content.  Embedding
models, the chroma similarity index and the language model are external
capabilities and are passed in as function parameters (oracles).
-/

/-- Python strings are modelled as lists of characters. -/
abbrev Str := List Char

/-- Whitespace as recognised by Python's `str.strip` / the regex class
`\s` (space, tab, newline, carriage return, form feed, vertical tab). -/
def isSpace (c : Char) : Bool :=
  c = ' ' || c = '\t' || c = '\n' || c = '\r' || c = '\x0c' || c = '\x0b'

/-- Python `str.strip()`: remove leading and trailing whitespace. -/
def strip (s : Str) : Str :=
  ((s.dropWhile isSpace).reverse.dropWhile isSpace).reverse

/-- Python `str.lower()` (restricted to the ASCII case folding that the
queries use). -/
def lowerStr (s : Str) : Str := s.map Char.toLower

namespace HtmlTextSplitter

/-- One element returned by the xpath query
`//h1 | //h2 | //h3 | //h4 | //h5 | //h6 | //p` of
`HtmlTextSplitter.split`: its tag, its optional `id` attribute
(`element.get('id')`) and its text content (`element.text_content()`,
before stripping). -/
structure Element where
  tag : Str
  idAttr : Option Str
  textContent : Str
deriving Repr, DecidableEq

/-- The `Document` built by `HtmlTextSplitter.split`: the chunk text and
the metadata dict with keys `chunk_index`, `paragraph_ids` and
`element_types` (the latter two comma-joined strings). -/
structure Chunk where
  page_content : Str
  chunk_index : Nat
  paragraph_ids : Str
  element_types : Str
deriving Repr, DecidableEq

/-- Python `",".join(l)` (for an empty list the source uses `""`, which
coincides with the join of the empty list). -/
def joinComma (l : List Str) : Str := List.intercalate [','] l

/-- The ids contributed by one element in the loop body of `split`:
`[element_id] if element_id else []` (Python treats the empty string as
falsy, and `element.get` may return no attribute at all). -/
def pidsOfElem (e : Element) : List Str :=
  match e.idAttr with
  | some i => if i.isEmpty then [] else [i]
  | none => []

/-- The loop of `HtmlTextSplitter.split` over the remaining elements.
State: the finished chunks, the running chunk text `current_chunk`, the
running `current_paragraph_ids` and `current_element_types`.  After the
loop a trailing non-empty buffer is flushed. -/
def splitLoop (chunkSize : Nat) :
    List Element → List Chunk → Str → List Str → List Str → List Chunk
  | [], chunks, cur, pids, etys =>
      if cur.isEmpty then chunks
      else chunks ++ [⟨cur, chunks.length, joinComma pids, joinComma etys⟩]
  | e :: rest, chunks, cur, pids, etys =>
      if (strip e.textContent).isEmpty then
        splitLoop chunkSize rest chunks cur pids etys
      else if cur.length + (strip e.textContent).length + 1 ≤ chunkSize then
        splitLoop chunkSize rest chunks
          (if cur.isEmpty then strip e.textContent else cur ++ ' ' :: strip e.textContent)
          (pids ++ pidsOfElem e) (etys ++ [e.tag])
      else
        splitLoop chunkSize rest
          (chunks ++ [⟨cur, chunks.length, joinComma pids, joinComma etys⟩])
          (strip e.textContent) (pidsOfElem e) [e.tag]

/-- The `HtmlTextSplitter.split` method: run the loop from the empty
state over the document-ordered element list. -/
def split (chunkSize : Nat) (elements : List Element) : List Chunk :=
  splitLoop chunkSize elements [] [] [] []

/-- Decode of the comma-joined `paragraph_ids` metadata string of a
chunk, as downstream consumers read it back: split on commas and drop
empty pieces. -/
def recordedIds (c : Chunk) : List Str :=
  (c.paragraph_ids.splitOn ',').filter (fun p => !p.isEmpty)

/-- The identifier one element contributes to the metadata of the
chunk it lands in: present exactly when the element has non-empty
stripped text (otherwise the loop skips it) and declares a non-empty
`id` attribute. -/
def collectFun (e : Element) : Option Str :=
  if (strip e.textContent).isEmpty then none
  else match e.idAttr with
    | some i => if i.isEmpty then none else some i
    | none => none

/-- The identifiers that the splitter records over a whole input: one
occurrence per element that has non-empty stripped text and declares a
non-empty `id` attribute. -/
def collectIds (es : List Element) : List Str :=
  es.filterMap collectFun

end HtmlTextSplitter

namespace SectionRegex

/-- Greedy match of the regex tail `(?:\.\d+)*` at the head of `s`,
with explicit fuel to keep the recursion structural: each successful
iteration consumes a dot and at least one digit, so fuel equal to the
length of the input (see `parseSecTail`) never runs out before the
match ends.  Returns the consumed characters and the remainder.
Backtracking never changes the overall result of the patterns this is
used in, because giving an iteration back always leaves the cursor on
a dot or a digit, which the continuations (a closing parenthesis or
the end of the pattern) never accept. -/
def parseSecTailFuel : Nat → Str → Str × Str
  | 0, s => ([], s)
  | n + 1, '.' :: rest =>
      if (rest.takeWhile Char.isDigit).isEmpty then ([], '.' :: rest)
      else
        ('.' :: rest.takeWhile Char.isDigit ++
            (parseSecTailFuel n (rest.dropWhile Char.isDigit)).1,
          (parseSecTailFuel n (rest.dropWhile Char.isDigit)).2)
  | _ + 1, s => ([], s)

/-- Greedy match of `(?:\.\d+)*` at the head of `s`. -/
def parseSecTail (s : Str) : Str × Str := parseSecTailFuel s.length s

/-- Greedy match of `\d+\.\d+(?:\.\d+)*` anchored at the head of `s`:
returns the matched token (regex group 1 of the source's patterns) and
the remainder, or `none` when the pattern does not match here. -/
def parseSectionNum (s : Str) : Option (Str × Str) :=
  let d1 := s.takeWhile Char.isDigit
  if d1.isEmpty then none
  else
    match s.dropWhile Char.isDigit with
    | '.' :: r2 =>
        let d2 := r2.takeWhile Char.isDigit
        if d2.isEmpty then none
        else
          let (t, r) := parseSecTail (r2.dropWhile Char.isDigit)
          some (d1 ++ '.' :: d2 ++ t, r)
    | _ => none

/-- Leftmost search for `re.search(r'\((\d+\.\d+(?:\.\d+)*)\)', query)`:
a parenthesized dotted section number; returns group 1. -/
def searchParen : Str → Option Str
  | [] => none
  | c :: rest =>
      if c = '(' then
        match parseSectionNum rest with
        | some (num, ')' :: _) => some num
        | _ => searchParen rest
      else searchParen rest

/-- Attempt, anchored at the current position, of the pattern
`(?:section\s+)?(\d+\.\d+(?:\.\d+)*)` with `re.IGNORECASE`: first with
the optional `section` + whitespace prefix, then without it. -/
def matchSectionAt (s : Str) : Option Str :=
  if lowerStr (s.take 7) = [ 's', 'e', 'c', 't', 'i', 'o', 'n' ] then
    let afterKw := s.drop 7
    let sp := afterKw.takeWhile isSpace
    if sp.isEmpty then (parseSectionNum s).map (fun pr => pr.1)
    else
      match parseSectionNum (afterKw.dropWhile isSpace) with
      | some (num, _) => some num
      | none => (parseSectionNum s).map (fun pr => pr.1)
  else (parseSectionNum s).map (fun pr => pr.1)

/-- Leftmost search for the second pattern of the extractors:
`re.search(r'(?:section\s+)?(\d+\.\d+(?:\.\d+)*)', query, re.IGNORECASE)`,
returning group 1. -/
def searchSection : Str → Option Str
  | [] => none
  | c :: rest =>
      match matchSectionAt (c :: rest) with
      | some num => some num
      | none => searchSection rest

/-- The `_extract_section_query` method, defined identically in
`ChromaVectorStore` and in `RAGPipeline`: first look for a
parenthesized section number, then for a bare or `section`-prefixed
one; `none` models Python's `None`. -/
def extractSectionQuery (q : Str) : Option Str :=
  match searchParen q with
  | some s => some s
  | none => searchSection q

end SectionRegex

namespace ChromaVectorStore

/-- A stored chunk as the chroma collection returns it: the document
text and the `paragraph_ids` metadata entry.  `none` collapses the
cases metadata absent / falsy / key missing, which the source treats
identically. -/
structure Doc where
  page_content : Str
  paragraphIds? : Option Str
deriving Repr, DecidableEq

/-- The match test of `_retrieve_by_section` for one stored chunk:
metadata present with a truthy `paragraph_ids` string, and some
comma-separated piece, stripped, starts with the section number. -/
def sectionMatches (sec : Str) (d : Doc) : Bool :=
  match d.paragraphIds? with
  | some pids =>
      !pids.isEmpty && (pids.splitOn ',').any (fun p => sec.isPrefixOf (strip p))
  | none => false

/-- The `_retrieve_by_section` method: scan the collection in index
order for chunks whose identifiers begin with the section number; if
any match, return the first `top_k` of them, else fall back to the
semantic search oracle with the section number as query text. -/
def retrieveBySection (semantic : Str → Nat → List Doc) (docs : List Doc)
    (sec : Str) (top_k : Nat) : List Doc :=
  if (docs.filter (sectionMatches sec)).isEmpty then semantic sec top_k
  else (docs.filter (sectionMatches sec)).take top_k

/-- The `retrieve` method: extract a section number from the query and
use section retrieval when one is found, otherwise semantic search.
`semantic` is the oracle for `_retrieve_by_semantic` (the chroma
similarity index, an external capability); `docs` is the collection
content in index order. -/
def retrieve (semantic : Str → Nat → List Doc) (docs : List Doc)
    (query : Str) (top_k : Nat) : List Doc :=
  match SectionRegex.extractSectionQuery query with
  | some sec => retrieveBySection semantic docs sec top_k
  | none => semantic query top_k

end ChromaVectorStore

namespace RAGPipeline

open ChromaVectorStore (Doc)

/-- The keyword list of `_is_executive_summary_query`. -/
def executiveSummaryKeywords : List Str :=
  [("executive summary").data, ("summary").data, ("overview").data,
   ("main findings").data, ("key conclusions").data,
   ("main conclusions").data, ("summary of findings").data]

/-- Python's substring test `k in s`: `k` occurs contiguously in `s`. -/
def containsSub (k : Str) : Str → Bool
  | [] => k.isEmpty
  | c :: rest => k.isPrefixOf (c :: rest) || containsSub k rest

/-- The `_is_executive_summary_query` method: some keyword occurs as a
substring of the lowercased query. -/
def isExecutiveSummaryQuery (query : Str) : Bool :=
  executiveSummaryKeywords.any (fun k => containsSub k (lowerStr query))

/-- The context-deduplication loop of `run`: keep a document when its
`page_content` has not been seen yet, in order. -/
def dedupDocsAux : List Doc → List Str → List Doc
  | [], _ => []
  | d :: rest, seen =>
      if d.page_content ∈ seen then dedupDocsAux rest seen
      else d :: dedupDocsAux rest (d.page_content :: seen)

/-- Deduplication of the retrieved documents by exact text equality,
preserving first-seen order (the `seen` set starts empty). -/
def dedupDocs (documents : List Doc) : List Doc := dedupDocsAux documents []

/-- Python `list(dict.fromkeys(l))`: remove duplicates keeping the
first occurrence of each element. -/
def dedupFirstAux : List Str → List Str → List Str
  | [], _ => []
  | x :: rest, seen =>
      if x ∈ seen then dedupFirstAux rest seen
      else x :: dedupFirstAux rest (x :: seen)

/-- Order-preserving first-occurrence deduplication from the empty seen
set. -/
def dedupFirst (l : List Str) : List Str := dedupFirstAux l []

/-- The paragraph-id extraction loop of `run`: for each document whose
metadata carries a truthy `paragraph_ids` string, split it on commas,
strip each piece, keep the non-empty ones, and concatenate across the
documents in order. -/
def extractParagraphIds (docs : List Doc) : List Str :=
  docs.flatMap (fun d =>
    match d.paragraphIds? with
    | some s =>
        if s.isEmpty then []
        else (s.splitOn ',').filterMap (fun i =>
          if (strip i).isEmpty then none else some (strip i))
    | none => [])

/-- The `_create_scientific_prompt` template. -/
def createScientificPrompt (context query : Str) : Str :=
  ("You are a climate science expert analyzing IPCC reports. Provide accurate, evidence-based answers using ONLY the provided context.\n\nGuidelines:\n- Base your answer ONLY on the provided context\n- Be precise and scientific with technical terminology\n- Cite specific data and findings when available\n- Acknowledge uncertainty and confidence levels\n- If context is insufficient, say so clearly\n- Structure your response with key points and evidence\n- Be specific about what the IPCC report actually states\n\nContext:\n").data
  ++ context ++ ("\n\nQuestion: ").data ++ query ++ ("\n\nAnswer:").data

/-- The `_create_section_prompt` template. -/
def createSectionPrompt (context query sec : Str) : Str :=
  ("You are a climate science expert analyzing a specific section (").data
  ++ sec
  ++ (") of an IPCC report.\nUse ONLY the following context to answer the user\x27s question about this section.\n\nSECTION-SPECIFIC GUIDELINES:\n1. **Focus on section ").data
  ++ sec
  ++ ("** - only use information from this specific section\n2. **Be precise about what this section covers** - don\x27t generalize beyond the section scope\n3. **If the section doesn\x27t address the question**, say \"Section ").data
  ++ sec
  ++ (" does not address this question\"\n4. **Cite specific findings** from this section when available\n5. **Maintain scientific accuracy** - use the exact language and data from the section\n\nCONTEXT FROM SECTION ").data
  ++ sec ++ (":\n").data ++ context
  ++ ("\n\nQUESTION: ").data ++ query ++ ("\n\nANSWER:").data

/-- The `_create_executive_summary_prompt` template. -/
def createExecutiveSummaryPrompt (context query : Str) : Str :=
  ("Based on the following context from an IPCC chapter, answer the question about the Executive Summary or main findings.\n\nContext:\n").data
  ++ context ++ ("\n\nQuestion: ").data ++ query ++ ("\n\nAnswer:").data

/-- The dictionary `run` returns: generated answer, deduplicated
context documents, and deduplicated paragraph identifiers. -/
structure RunResult where
  answer : Str
  context : List Doc
  paragraph_ids : List Str
deriving Repr, DecidableEq

/-- The `RAGPipeline.run` method.  `retrieve` is the vector store's
retrieval (`self.vector_store.retrieve`) and `generate` the language
model call (`self.model.generate`, with the temperature folded into the
oracle); both are external capabilities. -/
def run (retrieve : Str → Nat → List Doc) (generate : Str → Str)
    (query : Str) (top_k : Nat) : RunResult :=
  let documents :=
    if isExecutiveSummaryQuery query then
      retrieve (query ++ (" executive summary").data) 2
    else retrieve query top_k
  let unique_docs := dedupDocs documents
  let context := List.intercalate ("\n\n").data (unique_docs.map (fun d => d.page_content))
  let prompt :=
    match SectionRegex.extractSectionQuery query with
    | some sec => createSectionPrompt context query sec
    | none =>
        if isExecutiveSummaryQuery query then
          createExecutiveSummaryPrompt context query
        else createScientificPrompt context query
  let answer := generate prompt
  let paragraph_ids := extractParagraphIds unique_docs
  ⟨answer, unique_docs, dedupFirst paragraph_ids⟩

/-- Modelled from the spec of pipeline step 7, for comparison with the
code: split each chunk's comma-joined `paragraph_ids` string on commas,
trim whitespace from each piece, drop empty pieces, concatenate across
chunks in chunk order, and remove duplicates keeping the first
occurrence. -/
def specParagraphIds (docs : List Doc) : List Str :=
  dedupFirst (docs.flatMap (fun d =>
    (((d.paragraphIds?.getD []).splitOn ',').map strip).filter
      (fun i => !i.isEmpty)))

end RAGPipeline

namespace ChapterRAG

/-- The user-specific collection name built by `ChapterRAG.load_chapter`:
`f"ipcc_{chapter_name.replace('/', '_')}_{user_id}"`. -/
def collectionName (chapter_name user_id : Str) : Str :=
  ("ipcc_").data
  ++ chapter_name.map (fun c => if c = '/' then '_' else c)
  ++ '_' :: user_id

end ChapterRAG

namespace Ingestion

open HtmlTextSplitter (Element Chunk split)

/-- The chroma index under `./chroma_db`, modelled as an association
list from collection name to the stored chunks, in storage order (the
first binding of a name is the collection of that name). -/
abbrev Index := List (Str × List Chunk)

/-- Lookup of a collection by name (`client.get_collection` succeeds
exactly when this is `some`). -/
def lookupColl : Index → Str → Option (List Chunk)
  | [], _ => none
  | (n, its) :: rest, name => if n = name then some its else lookupColl rest name

/-- Effect on the index of `ChromaVectorStore.__init__`
(`get_or_create_collection`) followed by `add_documents`: append the
chunks to the collection of that name, creating it when absent. -/
def addDocuments : Index → Str → List Chunk → Index
  | [], name, items => [(name, items)]
  | (n, its) :: rest, name, items =>
      if n = name then (n, its ++ items) :: rest
      else (n, its) :: addDocuments rest name items

/-- The caching gate of `ingest_html_file`: with `force_reingest`
false, a collection of the target name that exists and has a nonzero
count is a cache hit (a failing `get_collection` is swallowed and
ingestion proceeds). -/
def cacheHit (idx : Index) (collection_name : Str) (force_reingest : Bool) : Bool :=
  !force_reingest &&
    (match lookupColl idx collection_name with
     | some items => items.length > 0
     | none => false)

/-- Outcome of one `ingest_html_file` call: the raised error message if
any (`none` = normal return), the index after the call, and how many
times `embedder.embed` was invoked. -/
structure IngestOutcome where
  error? : Option Str
  index : Index
  embedCalls : Nat
deriving Repr, DecidableEq

/-- The `ingest_html_file` function.  `fileExists` models
`os.path.isfile(file_path)` and `elements` the parsed element list of
the file's HTML content; embeddings are computed in batches of 50, one
`embedder.embed` call per batch. -/
def ingest_html_file (fileExists : Bool) (file_path : Str)
    (elements : List Element) (collection_name : Str) (chunk_size : Nat)
    (force_reingest : Bool) (idx : Index) : IngestOutcome :=
  if !fileExists then
    ⟨some (("HTML file not found: ").data ++ file_path), idx, 0⟩
  else if cacheHit idx collection_name force_reingest then
    ⟨none, idx, 0⟩
  else if (split chunk_size elements).isEmpty then
    ⟨some ("No content extracted from the HTML file.").data, idx, 0⟩
  else
    ⟨none, addDocuments idx collection_name (split chunk_size elements),
      ((split chunk_size elements).length + 49) / 50⟩

end Ingestion

namespace HtmlTextSplitter

theorem joinComma_nil : joinComma [] = [] := rfl

/-- Invariant behind C10: if the accumulated chunks are indexed
`0, 1, ...` then so is the final output of the loop. -/
theorem splitLoop_map_chunk_index (B : Nat) :
    ∀ (rest : List Element) (chunks : List Chunk) (cur : Str) (pids etys : List Str),
      chunks.map (fun c => c.chunk_index) = List.range chunks.length →
      (splitLoop B rest chunks cur pids etys).map (fun c => c.chunk_index)
        = List.range (splitLoop B rest chunks cur pids etys).length
  | [], chunks, cur, pids, etys, h => by
      unfold splitLoop
      split
      · exact h
      · simp [List.range_succ, h]
  | e :: rest, chunks, cur, pids, etys, h => by
      unfold splitLoop
      split
      · exact splitLoop_map_chunk_index B rest chunks cur pids etys h
      · split
        · exact splitLoop_map_chunk_index B rest chunks _ _ _ h
        · refine splitLoop_map_chunk_index B rest _ _ _ _ ?_
          simp [List.range_succ, h]

/-- C10: the `chunk_index` metadata of the i-th chunk returned by
`HtmlTextSplitter.split` is `i`: the chunk indices are exactly
`0, 1, 2, ...` in output order, with no gaps or repetitions. -/
theorem claim_C10 (B : Nat) (elements : List Element) :
    (split B elements).map (fun c => c.chunk_index)
      = List.range (split B elements).length :=
  splitLoop_map_chunk_index B elements [] [] [] [] rfl

/-- Invariant behind C1: an oversized finished chunk, and an oversized
running buffer, are single element texts. -/
theorem splitLoop_oversize (B : Nat) (es : List Element) :
    ∀ (rest : List Element) (chunks : List Chunk) (cur : Str) (pids etys : List Str),
      (∀ c ∈ chunks, B < c.page_content.length →
        ∃ e ∈ es, c.page_content = strip e.textContent) →
      (B < cur.length → ∃ e ∈ es, cur = strip e.textContent) →
      (∀ e ∈ rest, e ∈ es) →
      ∀ c ∈ splitLoop B rest chunks cur pids etys, B < c.page_content.length →
        ∃ e ∈ es, c.page_content = strip e.textContent
  | [], chunks, cur, pids, etys, h1, h2, _, c, hc, hlen => by
      unfold splitLoop at hc
      split at hc
      · exact h1 c hc hlen
      · rcases List.mem_append.1 hc with hmem | hmem
        · exact h1 c hmem hlen
        · have : c = ⟨cur, chunks.length, joinComma pids, joinComma etys⟩ := by
            simpa using hmem
          subst this
          exact h2 hlen
  | e :: rest, chunks, cur, pids, etys, h1, h2, h3, c, hc, hlen => by
      have h3' : ∀ e' ∈ rest, e' ∈ es := fun e' h => h3 e' (List.mem_cons_of_mem e h)
      unfold splitLoop at hc
      split at hc
      · exact splitLoop_oversize B es rest chunks cur pids etys h1 h2 h3' c hc hlen
      · rename_i htext
        split at hc
        · rename_i hfits
          refine splitLoop_oversize B es rest chunks _ _ _ h1 ?_ h3' c hc hlen
          intro hbig
          exfalso
          by_cases hemp : cur.isEmpty = true
          · rw [if_pos hemp] at hbig
            omega
          · rw [if_neg hemp, List.length_append, List.length_cons] at hbig
            omega
        · refine splitLoop_oversize B es rest _ _ _ _ ?_ ?_ h3' c hc hlen
          · intro c' hc' hlen'
            rcases List.mem_append.1 hc' with hmem | hmem
            · exact h1 c' hmem hlen'
            · have : c' = ⟨cur, chunks.length, joinComma pids, joinComma etys⟩ := by
                simpa using hmem
              subst this
              exact h2 hlen'
          · exact fun _ => ⟨e, h3 e (List.mem_cons_self e rest), rfl⟩

/-- C1: every chunk produced by `HtmlTextSplitter.split` has text
length at most the configured budget `B`, except a chunk that is
exactly one source element's (stripped) text when that text alone
exceeds `B`; equivalently — as proved here — any produced chunk whose
text length exceeds `B` consists of a single source element's text. -/
theorem claim_C1 (B : Nat) (elements : List Element) :
    ∀ c ∈ split B elements, B < c.page_content.length →
      ∃ e ∈ elements, c.page_content = strip e.textContent ∧
        B < (strip e.textContent).length := by
  intro c hc hlen
  obtain ⟨e, he, heq⟩ :=
    splitLoop_oversize B elements elements [] [] [] []
      (by intro c' h; exact absurd h (List.not_mem_nil c'))
      (by intro h; exact absurd h (by simp))
      (fun e h => h) c hc hlen
  exact ⟨e, he, heq, heq ▸ hlen⟩

/-- Witness for C1 at a concrete input: a 5-character element under a
3-character budget produces an oversized chunk equal to that element's
own text. -/
theorem claim_C1_witness :
    (⟨("hello").data, 1, [], ("p").data⟩ : Chunk) ∈
        split 3 [⟨("p").data, none, ("hello").data⟩] ∧
      3 < (("hello").data : Str).length ∧
      ∃ e ∈ [(⟨("p").data, none, ("hello").data⟩ : Element)],
        (("hello").data : Str) = strip e.textContent ∧
          3 < (strip e.textContent).length :=
  ⟨by decide, by decide,
    claim_C1 3 [⟨("p").data, none, ("hello").data⟩]
      ⟨("hello").data, 1, [], ("p").data⟩ (by decide) (by decide)⟩

/-- Elements whose stripped text is empty are skipped by the loop. -/
theorem splitLoop_skip_empty (B : Nat) :
    ∀ (pre rest : List Element) (chunks : List Chunk) (cur : Str) (pids etys : List Str),
      (∀ e ∈ pre, (strip e.textContent).isEmpty = true) →
      splitLoop B (pre ++ rest) chunks cur pids etys
        = splitLoop B rest chunks cur pids etys
  | [], _, _, _, _, _, _ => rfl
  | e :: pre, rest, chunks, cur, pids, etys, h => by
      have he := h e (List.mem_cons_self e pre)
      rw [List.cons_append]
      have step : splitLoop B (e :: (pre ++ rest)) chunks cur pids etys
          = splitLoop B (pre ++ rest) chunks cur pids etys := by
        conv_lhs => unfold splitLoop
        rw [if_pos he]
      rw [step]
      exact splitLoop_skip_empty B pre rest chunks cur pids etys
        (fun e' h' => h e' (List.mem_cons_of_mem e h'))

/-- The loop only ever appends to the accumulated chunk list. -/
theorem splitLoop_chunks_grow (B : Nat) :
    ∀ (rest : List Element) (chunks : List Chunk) (cur : Str) (pids etys : List Str),
      ∃ t, splitLoop B rest chunks cur pids etys = chunks ++ t
  | [], chunks, cur, pids, etys => by
      unfold splitLoop
      split
      · exact ⟨[], by simp⟩
      · exact ⟨_, rfl⟩
  | e :: rest, chunks, cur, pids, etys => by
      unfold splitLoop
      split
      · exact splitLoop_chunks_grow B rest chunks cur pids etys
      · split
        · exact splitLoop_chunks_grow B rest chunks _ _ _
        · obtain ⟨t, ht⟩ := splitLoop_chunks_grow B rest
            (chunks ++ [⟨cur, chunks.length, joinComma pids, joinComma etys⟩])
            (strip e.textContent) (pidsOfElem e) [e.tag]
          exact ⟨_, by rw [ht, List.append_assoc]⟩

/-- A running buffer whose length already reaches the budget is
flushed unchanged as the very next finished chunk. -/
theorem splitLoop_flush_oversize (B : Nat) :
    ∀ (rest : List Element) (chunks : List Chunk) (cur : Str) (pids etys : List Str),
      cur.isEmpty = false → B ≤ cur.length →
      ∃ t, splitLoop B rest chunks cur pids etys
        = chunks ++ ⟨cur, chunks.length, joinComma pids, joinComma etys⟩ :: t
  | [], chunks, cur, pids, etys, hcur, _ => by
      unfold splitLoop
      rw [if_neg (by simp [hcur])]
      exact ⟨[], rfl⟩
  | e :: rest, chunks, cur, pids, etys, hcur, hlen => by
      unfold splitLoop
      split
      · exact splitLoop_flush_oversize B rest chunks cur pids etys hcur hlen
      · rename_i htext
        rw [if_neg (by
          have : 1 ≤ (strip e.textContent).length := by
            cases h : strip e.textContent with
            | nil => rw [h] at htext; simp at htext
            | cons a l => simp [h]
          omega)]
        obtain ⟨t, ht⟩ := splitLoop_chunks_grow B rest
          (chunks ++ [⟨cur, chunks.length, joinComma pids, joinComma etys⟩])
          (strip e.textContent) (pidsOfElem e) [e.tag]
        exact ⟨t, by rw [ht, List.append_assoc, List.singleton_append]⟩

/-- C9 (implicit): when the first text-bearing element's stripped text
has length + 1 exceeding the chunk size, `HtmlTextSplitter.split` emits
an empty first chunk — empty text, empty `paragraph_ids`, empty
`element_types` — and the oversized element's own chunk right after
it. -/
theorem claim_C9 (B : Nat) (pre : List Element) (e : Element) (rest : List Element)
    (hpre : ∀ e' ∈ pre, (strip e'.textContent).isEmpty = true)
    (he : (strip e.textContent).isEmpty = false)
    (hover : B < (strip e.textContent).length + 1) :
    ∃ t, split B (pre ++ e :: rest)
      = ⟨[], 0, [], []⟩ ::
        ⟨strip e.textContent, 1, joinComma (pidsOfElem e), joinComma [e.tag]⟩ :: t := by
  unfold split
  rw [splitLoop_skip_empty B pre (e :: rest) [] [] [] [] hpre]
  unfold splitLoop
  rw [if_neg (by simp [he]), if_neg (by simp; omega)]
  simp only [List.nil_append, List.length_nil]
  obtain ⟨t, ht⟩ := splitLoop_flush_oversize B rest
    [⟨[], 0, joinComma [], joinComma []⟩]
    (strip e.textContent) (pidsOfElem e) [e.tag] he (by omega)
  refine ⟨t, ?_⟩
  rw [ht]
  simp [joinComma, List.intercalate]

/-- Witness for C9 at a concrete input: one 5-character element under a
3-character budget. -/
theorem claim_C9_witness :
    (∀ e' ∈ ([] : List Element), (strip e'.textContent).isEmpty = true) ∧
      (strip (("hello").data)).isEmpty = false ∧
      3 < (strip (("hello").data)).length + 1 ∧
      ∃ t, split 3 ([] ++ ⟨("p").data, none, ("hello").data⟩ :: [])
        = ⟨[], 0, [], []⟩ ::
          ⟨strip (("hello").data), 1,
            joinComma (pidsOfElem ⟨("p").data, none, ("hello").data⟩),
            joinComma [(⟨("p").data, none, ("hello").data⟩ : Element).tag]⟩ :: t :=
  ⟨by decide, by decide, by decide,
    claim_C9 3 [] ⟨("p").data, none, ("hello").data⟩ []
      (by decide) (by decide) (by decide)⟩

end HtmlTextSplitter

namespace ChromaVectorStore

/-- C2: for every query from which a section number is extracted, if
some indexed chunk carries a paragraph identifier beginning with that
section number, `ChromaVectorStore.retrieve` returns exactly the
matching chunks in index order truncated to `top_k` — independently of
the semantic oracle, so semantic similarity search is never invoked —
and if no chunk matches, it returns the semantic search result with
the section number itself as query text. -/
theorem claim_C2 (semantic : Str → Nat → List Doc) (docs : List Doc)
    (query : Str) (top_k : Nat) (sec : Str)
    (hsec : SectionRegex.extractSectionQuery query = some sec) :
    ((∃ d ∈ docs, sectionMatches sec d = true) →
      retrieve semantic docs query top_k
        = (docs.filter (sectionMatches sec)).take top_k) ∧
    ((∀ d ∈ docs, sectionMatches sec d = false) →
      retrieve semantic docs query top_k = semantic sec top_k) := by
  constructor
  · rintro ⟨d, hd, hmatch⟩
    have hne : (docs.filter (sectionMatches sec)).isEmpty = false := by
      rcases h : (docs.filter (sectionMatches sec)).isEmpty with _ | _
      · rfl
      · have hmem : d ∈ docs.filter (sectionMatches sec) :=
          List.mem_filter.2 ⟨hd, hmatch⟩
        rw [List.isEmpty_iff.1 h] at hmem
        exact absurd hmem (List.not_mem_nil d)
    simp only [retrieve, retrieveBySection, hsec, hne, Bool.false_eq_true,
      if_false]
  · intro hnone
    have hemp : (docs.filter (sectionMatches sec)).isEmpty = true := by
      rw [List.isEmpty_iff, List.filter_eq_nil_iff]
      intro d hd
      simp [hnone d hd]
    simp only [retrieve, retrieveBySection, hsec, hemp, if_true]

/-- Witness for C2: a two-chunk collection queried with
`"section 4.1"`, for a semantic oracle that would return a marker
document; only the chunk whose identifier starts with `4.1` comes
back, and a collection with no match falls back to the oracle on the
section number. -/
theorem claim_C2_witness :
    SectionRegex.extractSectionQuery (("section 4.1").data) = some (("4.1").data) ∧
      (∃ d ∈ [(⟨("t1").data, some ("4.1.2").data⟩ : Doc), ⟨("t2").data, some ("7.2").data⟩],
        sectionMatches (("4.1").data) d = true) ∧
      retrieve (fun _ _ => [⟨("marker").data, none⟩])
          [⟨("t1").data, some ("4.1.2").data⟩, ⟨("t2").data, some ("7.2").data⟩]
          (("section 4.1").data) 3
        = ([(⟨("t1").data, some ("4.1.2").data⟩ : Doc), ⟨("t2").data, some ("7.2").data⟩].filter
            (sectionMatches (("4.1").data))).take 3 :=
  ⟨by decide, by decide,
    (claim_C2 (fun _ _ => [⟨("marker").data, none⟩])
      [⟨("t1").data, some ("4.1.2").data⟩, ⟨("t2").data, some ("7.2").data⟩]
      (("section 4.1").data) 3 (("4.1").data) (by decide)).1 (by decide)⟩

end ChromaVectorStore

namespace RAGPipeline

/-- Deduplication with a fixed seen set is idempotent: the documents
the first pass keeps all have unseen, pairwise distinct texts, so the
second pass keeps them all. -/
theorem dedupDocsAux_idem :
    ∀ (l : List ChromaVectorStore.Doc) (seen : List Str),
      dedupDocsAux (dedupDocsAux l seen) seen = dedupDocsAux l seen
  | [], _ => rfl
  | d :: rest, seen => by
      by_cases h : d.page_content ∈ seen
      · rw [dedupDocsAux, if_pos h]
        exact dedupDocsAux_idem rest seen
      · rw [dedupDocsAux, if_neg h, dedupDocsAux, if_neg h]
        rw [dedupDocsAux_idem rest (d.page_content :: seen)]

/-- C8: the context-deduplication step of `RAGPipeline.run` — drop
documents with exactly equal text, keeping the first occurrence in
order — is idempotent: applying it twice equals applying it once. -/
theorem claim_C8 (documents : List ChromaVectorStore.Doc) :
    dedupDocs (dedupDocs documents) = dedupDocs documents :=
  dedupDocsAux_idem documents []

/-- The per-string filterMap of the source's paragraph-id loop equals
the spec's split-trim-drop formulation. -/
theorem filterMap_strip_eq (l : List Str) :
    l.filterMap (fun i => if (strip i).isEmpty then none else some (strip i))
      = (l.map strip).filter (fun i => !i.isEmpty) := by
  induction l with
  | nil => rfl
  | cons a l ih =>
      rw [List.filterMap_cons, List.map_cons, List.filter_cons]
      by_cases h : strip a = []
      · have ha : (strip a).isEmpty = true := by simp [h]
        rw [ha]
        simpa using ih
      · have ha : (strip a).isEmpty = false := by
          cases hsa : strip a with
          | nil => exact absurd hsa h
          | cons b t => rfl
        rw [ha]
        simpa using ih

/-- The per-document case of the extraction loop of `run` equals the
spec's split-trim-drop form, for any metadata value. -/
theorem perDoc_ids_eq (o : Option Str) :
    (match o with
      | some s =>
          if s.isEmpty then []
          else (s.splitOn ',').filterMap (fun i =>
            if (strip i).isEmpty then none else some (strip i))
      | none => [])
      = (((o.getD []).splitOn ',').map strip).filter (fun i => !i.isEmpty) := by
  cases o with
  | none => rfl
  | some s =>
      show (if s.isEmpty then []
          else (s.splitOn ',').filterMap (fun i =>
            if (strip i).isEmpty then none else some (strip i)))
        = ((((some s).getD ([] : Str)).splitOn ',').map strip).filter
            (fun i => !i.isEmpty)
      by_cases hs : s = []
      · subst hs
        rfl
      · have hs' : s.isEmpty = false := by
          cases s with
          | nil => exact absurd rfl hs
          | cons a l => rfl
        rw [Option.getD_some, hs']
        rw [if_neg (by simp)]
        exact filterMap_strip_eq _

/-- The extraction loop of `run` equals the spec's per-document
formulation before deduplication. -/
theorem extractParagraphIds_eq_spec (docs : List ChromaVectorStore.Doc) :
    extractParagraphIds docs
      = docs.flatMap (fun d =>
          (((d.paragraphIds?.getD []).splitOn ',').map strip).filter
            (fun i => !i.isEmpty)) := by
  unfold extractParagraphIds
  congr 1
  funext d
  exact perDoc_ids_eq d.paragraphIds?

/-- C7: the `paragraph_ids` field of `RAGPipeline.run`'s result is
exactly the spec's function of the deduplicated retrieved chunks'
metadata (the `context` field): split each comma-joined string, trim,
drop empties, concatenate in chunk order, and deduplicate keeping
first occurrences. -/
theorem claim_C7 (retrieve : Str → Nat → List ChromaVectorStore.Doc)
    (generate : Str → Str) (query : Str) (top_k : Nat) :
    (run retrieve generate query top_k).paragraph_ids
      = specParagraphIds (run retrieve generate query top_k).context := by
  unfold run specParagraphIds
  simp only []
  rw [extractParagraphIds_eq_spec]

end RAGPipeline

namespace ChapterRAG

/-- Splitting at a separator absent from the two prefix parts is
unambiguous. -/
theorem append_sep_inj (a : Char) :
    ∀ (x1 x2 y1 y2 : List Char), a ∉ x1 → a ∉ x2 →
      x1 ++ a :: y1 = x2 ++ a :: y2 → x1 = x2 ∧ y1 = y2
  | [], [], y1, y2, _, _, h => ⟨rfl, by simpa using h⟩
  | [], c :: x2, y1, y2, _, hx2, h => by
      rw [List.nil_append, List.cons_append] at h
      have : a = c := (List.cons.injEq _ _ _ _ ▸ h).1
      exact absurd (this ▸ List.mem_cons_self c x2) hx2
  | b :: x1, [], y1, y2, hx1, _, h => by
      rw [List.nil_append, List.cons_append] at h
      have : b = a := (List.cons.injEq _ _ _ _ ▸ h).1
      exact absurd (this ▸ List.mem_cons_self b x1) hx1
  | b :: x1, c :: x2, y1, y2, hx1, hx2, h => by
      rw [List.cons_append, List.cons_append] at h
      obtain ⟨hbc, ht⟩ := List.cons.injEq _ _ _ _ ▸ h
      obtain ⟨h1, h2⟩ := append_sep_inj a x1 x2 y1 y2
        (fun hm => hx1 (List.mem_cons_of_mem b hm))
        (fun hm => hx2 (List.mem_cons_of_mem c hm)) ht
      exact ⟨by rw [hbc, h1], h2⟩

/-- Replacing slashes by underscores is injective on underscore-free
strings. -/
theorem mapSlash_inj :
    ∀ (c1 c2 : Str), '_' ∉ c1 → '_' ∉ c2 →
      c1.map (fun c => if c = '/' then '_' else c)
        = c2.map (fun c => if c = '/' then '_' else c) → c1 = c2
  | [], [], _, _, _ => rfl
  | [], b :: c2, _, _, h => by simp at h
  | a :: c1, [], _, _, h => by simp at h
  | a :: c1, b :: c2, h1, h2, h => by
      rw [List.map_cons, List.map_cons] at h
      obtain ⟨hab, ht⟩ := List.cons.injEq _ _ _ _ ▸ h
      have ha : a ≠ '_' := fun hc => h1 (hc ▸ List.mem_cons_self a c1)
      have hb : b ≠ '_' := fun hc => h2 (hc ▸ List.mem_cons_self b c2)
      have hab' : a = b := by
        by_cases ca : a = '/'
        · by_cases cb : b = '/'
          · rw [ca, cb]
          · rw [if_pos ca, if_neg cb] at hab
            exact absurd hab.symm hb
        · by_cases cb : b = '/'
          · rw [if_neg ca, if_pos cb] at hab
            exact absurd hab ha
          · rwa [if_neg ca, if_neg cb] at hab
      have := mapSlash_inj c1 c2
        (fun hm => h1 (List.mem_cons_of_mem a hm))
        (fun hm => h2 (List.mem_cons_of_mem b hm)) ht
      rw [hab', this]

/-- Counterexample to C3 as stated: the distinct document identifiers
`a/b` and `a_b` give the same collection name for the same user, so
collection naming is not injective on (document, user) pairs and the
two pairs share one partition. -/
theorem claim_C3_counterexample :
    collectionName (("a/b").data) (("u").data)
        = collectionName (("a_b").data) (("u").data) ∧
      (("a/b").data : Str) ≠ ("a_b").data := by
  constructor
  · decide
  · decide

/-- C3 amended: the collection name is the deterministic concatenation
of the fixed prefix, the document identifier with `/` replaced by `_`,
and the user identifier, and this keying is injective — hence isolating
— on pairs whose document and user identifiers contain no underscore. -/
theorem claim_C3_amended (c1 u1 c2 u2 : Str)
    (h1 : '_' ∉ c1) (h2 : '_' ∉ u1) (h3 : '_' ∉ c2) (h4 : '_' ∉ u2)
    (heq : collectionName c1 u1 = collectionName c2 u2) :
    c1 = c2 ∧ u1 = u2 := by
  unfold collectionName at heq
  rw [List.append_assoc, List.append_assoc] at heq
  have heq2 := List.append_cancel_left heq
  have heqr := congrArg List.reverse heq2
  rw [List.reverse_append, List.reverse_cons, List.reverse_append,
    List.reverse_cons] at heqr
  rw [List.append_assoc, List.append_assoc, List.singleton_append,
    List.singleton_append] at heqr
  have hm1 : '_' ∉ u1.reverse := fun hm => h2 (List.mem_reverse.1 hm)
  have hm2 : '_' ∉ u2.reverse := fun hm => h4 (List.mem_reverse.1 hm)
  obtain ⟨hu, hc⟩ := append_sep_inj '_' u1.reverse u2.reverse _ _ hm1 hm2 heqr
  constructor
  · exact mapSlash_inj c1 c2 h1 h3
      (List.reverse_injective (by simpa using hc))
  · exact List.reverse_injective hu

/-- Witness for the amended C3 at concrete underscore-free inputs. -/
theorem claim_C3_amended_witness :
    ('_' ∉ ("a/b").data ∧ '_' ∉ ("u").data ∧
        collectionName (("a/b").data) (("u").data)
          = collectionName (("a/b").data) (("u").data)) ∧
      (("a/b").data : Str) = ("a/b").data ∧ (("u").data : Str) = ("u").data :=
  ⟨⟨by decide, by decide, rfl⟩,
    claim_C3_amended (("a/b").data) (("u").data) (("a/b").data) (("u").data)
      (by decide) (by decide) (by decide) (by decide) rfl⟩

end ChapterRAG

namespace Ingestion

/-- Appending documents to a collection leaves them retrievable: the
collection of that name afterwards ends with the appended items. -/
theorem lookupColl_addDocuments :
    ∀ (idx : Index) (name : Str) (items : List HtmlTextSplitter.Chunk),
      ∃ pre, lookupColl (addDocuments idx name items) name = some (pre ++ items)
  | [], name, items => ⟨[], by simp [addDocuments, lookupColl]⟩
  | (n, its) :: rest, name, items => by
      by_cases h : n = name
      · exact ⟨its, by simp [addDocuments, lookupColl, h]⟩
      · obtain ⟨pre, hpre⟩ := lookupColl_addDocuments rest name items
        exact ⟨pre, by simp [addDocuments, lookupColl, h, hpre]⟩

/-- C4: with `force=false`, a call of `ingest_html_file` against an
existing collection with a nonzero stored-item count returns at once —
no embedding call, index unchanged; consequently a second call right
after any successful call performs no embedding and leaves the index
exactly as the first call left it. -/
theorem claim_C4 :
    (∀ (file_path : Str) (elements : List HtmlTextSplitter.Element)
        (collection_name : Str) (chunk_size : Nat) (idx : Index)
        (items : List HtmlTextSplitter.Chunk),
        lookupColl idx collection_name = some items → 0 < items.length →
        ingest_html_file true file_path elements collection_name chunk_size false idx
          = ⟨none, idx, 0⟩) ∧
    (∀ (file_path : Str) (elements : List HtmlTextSplitter.Element)
        (collection_name : Str) (chunk_size : Nat) (idx : Index)
        (out : IngestOutcome),
        ingest_html_file true file_path elements collection_name chunk_size false idx
          = out →
        out.error? = none →
        ingest_html_file true file_path elements collection_name chunk_size false out.index
          = ⟨none, out.index, 0⟩) := by
  constructor
  · intro file_path elements collection_name chunk_size idx items hlook hpos
    have hhit : cacheHit idx collection_name false = true := by
      unfold cacheHit
      rw [hlook]
      simpa using hpos
    unfold ingest_html_file
    rw [hhit]
    rfl
  · intro file_path elements collection_name chunk_size idx out hrun hok
    by_cases hhit : cacheHit idx collection_name false = true
    · have hout : out = ⟨none, idx, 0⟩ := by
        rw [← hrun]
        unfold ingest_html_file
        rw [hhit]
        rfl
      subst hout
      unfold ingest_html_file
      rw [hhit]
      rfl
    · have hhit' : cacheHit idx collection_name false = false :=
        Bool.of_not_eq_true hhit
      by_cases hchunks : (HtmlTextSplitter.split chunk_size elements).isEmpty = true
      · exfalso
        have hout : out = ⟨some ("No content extracted from the HTML file.").data,
            idx, 0⟩ := by
          rw [← hrun]
          unfold ingest_html_file
          rw [hhit', hchunks]
          rfl
        rw [hout] at hok
        exact Option.noConfusion hok
      · have hchunks' : (HtmlTextSplitter.split chunk_size elements).isEmpty = false :=
          Bool.of_not_eq_true hchunks
        have hout : out = ⟨none,
            addDocuments idx collection_name (HtmlTextSplitter.split chunk_size elements),
            ((HtmlTextSplitter.split chunk_size elements).length + 49) / 50⟩ := by
          rw [← hrun]
          unfold ingest_html_file
          rw [hhit', hchunks']
          rfl
        obtain ⟨pre, hpre⟩ := lookupColl_addDocuments idx collection_name
          (HtmlTextSplitter.split chunk_size elements)
        have hlen : 0 < (HtmlTextSplitter.split chunk_size elements).length := by
          cases hsp : HtmlTextSplitter.split chunk_size elements with
          | nil => rw [hsp] at hchunks'; exact absurd hchunks' (by simp)
          | cons a l => simp
        have hhit2 : cacheHit (addDocuments idx collection_name
            (HtmlTextSplitter.split chunk_size elements)) collection_name false = true := by
          unfold cacheHit
          rw [hpre]
          simp [List.length_append]
          omega
        rw [hout]
        unfold ingest_html_file
        rw [hhit2]
        rfl

/-- Witness for C4: a prefilled one-collection index cache-hits, and a
fresh ingestion followed by a repeat call embeds only once. -/
theorem claim_C4_witness :
    (lookupColl [((("c").data : Str), [⟨("t").data, 0, [], ("p").data⟩])] (("c").data)
        = some [⟨("t").data, 0, [], ("p").data⟩] ∧
      ingest_html_file true (("f.html").data) [] (("c").data) 10 false
          [((("c").data : Str), [⟨("t").data, 0, [], ("p").data⟩])]
        = ⟨none, [((("c").data : Str), [⟨("t").data, 0, [], ("p").data⟩])], 0⟩) ∧
    (ingest_html_file true (("f.html").data)
          [⟨("p").data, none, ("hi").data⟩] (("c").data) 10 false []).error? = none ∧
      ingest_html_file true (("f.html").data)
          [⟨("p").data, none, ("hi").data⟩] (("c").data) 10 false
          (ingest_html_file true (("f.html").data)
            [⟨("p").data, none, ("hi").data⟩] (("c").data) 10 false []).index
        = ⟨none,
            (ingest_html_file true (("f.html").data)
              [⟨("p").data, none, ("hi").data⟩] (("c").data) 10 false []).index, 0⟩ :=
  ⟨⟨by decide,
      claim_C4.1 (("f.html").data) [] (("c").data) 10
        [((("c").data : Str), [⟨("t").data, 0, [], ("p").data⟩])]
        [⟨("t").data, 0, [], ("p").data⟩] (by decide) (by decide)⟩,
    by decide,
    claim_C4.2 (("f.html").data) [⟨("p").data, none, ("hi").data⟩] (("c").data) 10 []
      (ingest_html_file true (("f.html").data)
        [⟨("p").data, none, ("hi").data⟩] (("c").data) 10 false []) rfl (by decide)⟩

/-- C5: ingestion failures are atomic — a missing source file makes
`ingest_html_file` raise before touching the index or the embedder,
and, when the caching gate does not fire, an empty chunking result
makes it raise with the index unchanged and no embedding computed. -/
theorem claim_C5 :
    (∀ (file_path : Str) (elements : List HtmlTextSplitter.Element)
        (collection_name : Str) (chunk_size : Nat) (force_reingest : Bool)
        (idx : Index),
        ingest_html_file false file_path elements collection_name chunk_size
            force_reingest idx
          = ⟨some ((("HTML file not found: ").data : Str) ++ file_path), idx, 0⟩) ∧
    (∀ (file_path : Str) (elements : List HtmlTextSplitter.Element)
        (collection_name : Str) (chunk_size : Nat) (force_reingest : Bool)
        (idx : Index),
        cacheHit idx collection_name force_reingest = false →
        (HtmlTextSplitter.split chunk_size elements).isEmpty = true →
        ingest_html_file true file_path elements collection_name chunk_size
            force_reingest idx
          = ⟨some (("No content extracted from the HTML file.").data), idx, 0⟩) := by
  constructor
  · intro file_path elements collection_name chunk_size force_reingest idx
    rfl
  · intro file_path elements collection_name chunk_size force_reingest idx hhit hsplit
    unfold ingest_html_file
    rw [hhit, hsplit]
    rfl

/-- Witness for C5: ingesting a whitespace-only paragraph into an empty
index raises the content-validation error with the index unchanged. -/
theorem claim_C5_witness :
    (ingest_html_file false (("f.html").data) [] (("c").data) 10 false []
        = ⟨some ((("HTML file not found: ").data : Str) ++ ("f.html").data), [], 0⟩) ∧
      cacheHit [] (("c").data) false = false ∧
      (HtmlTextSplitter.split 10 [⟨("p").data, some ("p1").data, (" ").data⟩]).isEmpty
        = true ∧
      ingest_html_file true (("f.html").data)
          [⟨("p").data, some ("p1").data, (" ").data⟩] (("c").data) 10 false []
        = ⟨some (("No content extracted from the HTML file.").data), [], 0⟩ :=
  ⟨claim_C5.1 (("f.html").data) [] (("c").data) 10 false [],
    by decide, by decide,
    claim_C5.2 (("f.html").data) [⟨("p").data, some ("p1").data, (" ").data⟩]
      (("c").data) 10 false [] (by decide) (by decide)⟩

end Ingestion


namespace HtmlTextSplitter

/-- Decoding the comma-joined identifier string recovers the identifier
list when the joined pieces are non-empty and comma-free. -/
theorem recorded_join (pids : List Str)
    (h : ∀ p ∈ pids, p ≠ [] ∧ ',' ∉ p) :
    ((joinComma pids).splitOn ',').filter (fun p => !p.isEmpty) = pids := by
  cases hp : pids with
  | nil => rfl
  | cons q qs =>
      rw [← hp]
      unfold joinComma
      rw [List.splitOn_intercalate pids ',' (fun l hl => (h l hl).2)
        (by rw [hp]; exact List.cons_ne_nil q qs)]
      rw [List.filter_eq_self]
      intro a ha
      cases hae : a with
      | nil => exact absurd hae (h a ha).1
      | cons b t => rfl

/-- One step of `collectIds`. -/
theorem collectIds_cons (e : Element) (es : List Element) :
    collectIds (e :: es)
      = (if (strip e.textContent).isEmpty then [] else pidsOfElem e)
          ++ collectIds es := by
  unfold collectIds pidsOfElem
  rw [List.filterMap_cons]
  by_cases ht : (strip e.textContent).isEmpty = true
  · simp [collectFun, ht]
  · cases hid : e.idAttr with
    | none => simp [collectFun, ht, hid]
    | some i =>
        by_cases hi : i.isEmpty = true
        · simp [collectFun, ht, hid, hi]
        · simp [collectFun, ht, hid, hi]

/-- The identifiers contributed by one element are non-empty, and —
when its text is non-empty — comma-free whenever all collected ids of a
list containing it are. -/
theorem pidsOfElem_wf (e : Element) (rest : List Element)
    (hcomma : ∀ i ∈ collectIds (e :: rest), ',' ∉ i)
    (htext : (strip e.textContent).isEmpty = false) :
    ∀ p ∈ pidsOfElem e, p ≠ [] ∧ ',' ∉ p := by
  intro p hp
  unfold pidsOfElem at hp
  cases hid : e.idAttr with
  | none =>
      simp only [hid] at hp
      exact absurd hp (List.not_mem_nil p)
  | some i =>
      simp only [hid] at hp
      by_cases hi : i.isEmpty = true
      · rw [if_pos hi] at hp
        exact absurd hp (List.not_mem_nil p)
      · rw [if_neg hi] at hp
        have hpi : p = i := by simpa using hp
        subst hpi
        refine ⟨fun hc => hi (by rw [hc]; rfl), hcomma p ?_⟩
        rw [collectIds_cons, htext]
        simp only [Bool.false_eq_true, if_false]
        refine List.mem_append.2 (Or.inl ?_)
        simp [pidsOfElem, hid, hi]

/-- The multiset of identifiers recorded across all chunks the loop
produces is: those already recorded, then the pending ones, then one
per remaining text-bearing element with a non-empty id — provided all
ids are comma-free so that the comma-join encoding is lossless. -/
theorem splitLoop_recorded_bag (B : Nat) :
    ∀ (rest : List Element) (chunks : List Chunk) (cur : Str) (pids etys : List Str),
      (∀ p ∈ pids, p ≠ [] ∧ ',' ∉ p) →
      (∀ i ∈ collectIds rest, ',' ∉ i) →
      (cur.isEmpty = true → pids = []) →
      (splitLoop B rest chunks cur pids etys).flatMap recordedIds
        = chunks.flatMap recordedIds ++ pids ++ collectIds rest
  | [], chunks, cur, pids, etys, hwf, _, hemp => by
      unfold splitLoop
      by_cases hc : cur.isEmpty = true
      · rw [if_pos hc, hemp hc]
        simp [collectIds]
      · rw [if_neg hc, List.flatMap_append]
        have hrj : recordedIds ⟨cur, chunks.length, joinComma pids, joinComma etys⟩
            = pids := recorded_join pids hwf
        simp [hrj, collectIds]
  | e :: rest, chunks, cur, pids, etys, hwf, hcomma, hemp => by
      have hcomma' : ∀ i ∈ collectIds rest, ',' ∉ i := by
        intro i hi
        refine hcomma i ?_
        rw [collectIds_cons]
        exact List.mem_append.2 (Or.inr hi)
      unfold splitLoop
      by_cases ht : (strip e.textContent).isEmpty = true
      · rw [if_pos ht]
        rw [splitLoop_recorded_bag B rest chunks cur pids etys hwf hcomma' hemp]
        rw [collectIds_cons, if_pos ht, List.nil_append]
      · rw [if_neg ht]
        have htf : (strip e.textContent).isEmpty = false := Bool.of_not_eq_true ht
        have hwfe := pidsOfElem_wf e rest hcomma htf
        by_cases hfits : cur.length + (strip e.textContent).length + 1 ≤ B
        · rw [if_pos hfits]
          have hwf' : ∀ p ∈ pids ++ pidsOfElem e, p ≠ [] ∧ ',' ∉ p := by
            intro p hp
            rcases List.mem_append.1 hp with h | h
            · exact hwf p h
            · exact hwfe p h
          have hcur' : (if cur.isEmpty then strip e.textContent
              else cur ++ ' ' :: strip e.textContent).isEmpty = true →
              pids ++ pidsOfElem e = [] := by
            intro habs
            exfalso
            by_cases hc : cur.isEmpty = true
            · rw [if_pos hc, htf] at habs
              exact Bool.false_ne_true habs
            · rw [if_neg hc, List.isEmpty_iff] at habs
              simp at habs
          rw [splitLoop_recorded_bag B rest chunks _ _ _ hwf' hcomma' hcur']
          rw [collectIds_cons, if_neg ht]
          simp [List.append_assoc]
        · rw [if_neg hfits]
          have hcur0 : (strip e.textContent).isEmpty = true → pidsOfElem e = [] := by
            intro habs
            rw [htf] at habs
            exact absurd habs (by simp)
          rw [splitLoop_recorded_bag B rest _ _ _ _ hwfe hcomma' hcur0]
          rw [List.flatMap_append, collectIds_cons, if_neg ht]
          have hrj : recordedIds ⟨cur, chunks.length, joinComma pids, joinComma etys⟩
              = pids := recorded_join pids hwf
          simp [hrj, List.append_assoc]

end HtmlTextSplitter

namespace HtmlTextSplitter

/-- An identifier contributed by an element is that element's declared
`id` attribute. -/
theorem pidsOfElem_eq (e : Element) (p : Str) (hp : p ∈ pidsOfElem e) :
    e.idAttr = some p := by
  unfold pidsOfElem at hp
  cases hid : e.idAttr with
  | none => simp [hid] at hp
  | some i =>
      simp only [hid] at hp
      by_cases hi : i.isEmpty = true
      · rw [if_pos hi] at hp
        exact absurd hp (List.not_mem_nil p)
      · rw [if_neg hi] at hp
        have hpi : p = i := by simpa using hp
        rw [hpi]

/-- Invariant behind C6: every identifier recorded in a produced chunk
belongs to some text-bearing element of the input whose stripped text
occurs contiguously inside that chunk's text. -/
theorem splitLoop_recorded_contain (B : Nat) (es : List Element) :
    ∀ (rest : List Element) (chunks : List Chunk) (cur : Str) (pids etys : List Str),
      (∀ p ∈ pids, p ≠ [] ∧ ',' ∉ p) →
      (∀ i ∈ collectIds rest, ',' ∉ i) →
      (∀ c ∈ chunks, ∀ p ∈ recordedIds c,
        ∃ e' ∈ es, e'.idAttr = some p ∧ (strip e'.textContent).isEmpty = false ∧
          ∃ l r, c.page_content = l ++ strip e'.textContent ++ r) →
      (∀ p ∈ pids,
        ∃ e' ∈ es, e'.idAttr = some p ∧ (strip e'.textContent).isEmpty = false ∧
          ∃ l r, cur = l ++ strip e'.textContent ++ r) →
      (∀ e' ∈ rest, e' ∈ es) →
      ∀ c ∈ splitLoop B rest chunks cur pids etys, ∀ p ∈ recordedIds c,
        ∃ e' ∈ es, e'.idAttr = some p ∧ (strip e'.textContent).isEmpty = false ∧
          ∃ l r, c.page_content = l ++ strip e'.textContent ++ r
  | [], chunks, cur, pids, etys, hwf, _, hchunks, hcur, _, c, hc, p, hp => by
      unfold splitLoop at hc
      by_cases hcc : cur.isEmpty = true
      · rw [if_pos hcc] at hc
        exact hchunks c hc p hp
      · rw [if_neg hcc] at hc
        rcases List.mem_append.1 hc with hmem | hmem
        · exact hchunks c hmem p hp
        · have hceq : c = ⟨cur, chunks.length, joinComma pids, joinComma etys⟩ := by
            simpa using hmem
          subst hceq
          have hrj : recordedIds ⟨cur, chunks.length, joinComma pids, joinComma etys⟩
              = pids := recorded_join pids hwf
          rw [hrj] at hp
          exact hcur p hp
  | e :: rest, chunks, cur, pids, etys, hwf, hcomma, hchunks, hcur, hrest, c, hc, p, hp => by
      have hcomma' : ∀ i ∈ collectIds rest, ',' ∉ i := by
        intro i hi
        refine hcomma i ?_
        rw [collectIds_cons]
        exact List.mem_append.2 (Or.inr hi)
      have hrest' : ∀ e' ∈ rest, e' ∈ es :=
        fun e' h => hrest e' (List.mem_cons_of_mem e h)
      have hees : e ∈ es := hrest e (List.mem_cons_self e rest)
      unfold splitLoop at hc
      by_cases ht : (strip e.textContent).isEmpty = true
      · rw [if_pos ht] at hc
        exact splitLoop_recorded_contain B es rest chunks cur pids etys
          hwf hcomma' hchunks hcur hrest' c hc p hp
      · rw [if_neg ht] at hc
        have htf : (strip e.textContent).isEmpty = false := Bool.of_not_eq_true ht
        have hwfe := pidsOfElem_wf e rest hcomma htf
        by_cases hfits : cur.length + (strip e.textContent).length + 1 ≤ B
        · rw [if_pos hfits] at hc
          refine splitLoop_recorded_contain B es rest chunks _ _ _ ?_ hcomma'
            hchunks ?_ hrest' c hc p hp
          · intro q hq
            rcases List.mem_append.1 hq with h | h
            · exact hwf q h
            · exact hwfe q h
          · intro q hq
            rcases List.mem_append.1 hq with h | h
            · obtain ⟨e', he', hid', htf', l, r, heq⟩ := hcur q h
              by_cases hcc : cur.isEmpty = true
              · exfalso
                have hnil : ([] : Str) = l ++ strip e'.textContent ++ r := by
                  rw [← List.isEmpty_iff.1 hcc]
                  exact heq
                have h0 := hnil.symm
                rw [List.append_assoc, List.append_eq_nil,
                  List.append_eq_nil] at h0
                obtain ⟨h1, h2, h3⟩ := h0
                rw [h2] at htf'
                simp at htf'
              · refine ⟨e', he', hid', htf', l,
                  r ++ ' ' :: strip e.textContent, ?_⟩
                rw [if_neg hcc, heq]
                simp [List.append_assoc]
            · have hqid := pidsOfElem_eq e q h
              refine ⟨e, hees, hqid, htf, ?_⟩
              by_cases hcc : cur.isEmpty = true
              · exact ⟨[], [], by rw [if_pos hcc]; simp⟩
              · exact ⟨cur ++ [' '], [], by rw [if_neg hcc]; simp⟩
        · rw [if_neg hfits] at hc
          have hcurnew : ∀ q ∈ pidsOfElem e,
              ∃ e' ∈ es, e'.idAttr = some q ∧
                (strip e'.textContent).isEmpty = false ∧
                ∃ l r, strip e.textContent = l ++ strip e'.textContent ++ r := by
            intro q hq
            exact ⟨e, hees, pidsOfElem_eq e q hq, htf, [], [], by simp⟩
          refine splitLoop_recorded_contain B es rest _ _ _ _ hwfe hcomma'
            ?_ hcurnew hrest' c hc p hp
          intro c' hc' q hq
          rcases List.mem_append.1 hc' with hmem | hmem
          · exact hchunks c' hmem q hq
          · have hceq : c' = ⟨cur, chunks.length, joinComma pids, joinComma etys⟩ := by
              simpa using hmem
            subst hceq
            have hrj : recordedIds ⟨cur, chunks.length, joinComma pids, joinComma etys⟩
                = pids := recorded_join pids hwf
            rw [hrj] at hq
            exact hcur q hq

end HtmlTextSplitter

namespace HtmlTextSplitter

/-- An identifier whose total number of recorded occurrences across the
chunk list is one sits in exactly one chunk. -/
theorem count_one_unique (i : Str) (l : List Chunk)
    (h : (l.flatMap recordedIds).count i = 1) :
    ∃ c ∈ l, i ∈ recordedIds c ∧ ∀ c' ∈ l, i ∈ recordedIds c' → c' = c := by
  induction l with
  | nil => simp at h
  | cons c cs ih =>
      rw [List.flatMap_cons, List.count_append] at h
      by_cases hc : i ∈ recordedIds c
      · have h1 : 0 < (recordedIds c).count i := List.count_pos_iff.2 hc
        have h2 : (cs.flatMap recordedIds).count i = 0 := by omega
        have hnot : i ∉ cs.flatMap recordedIds := List.count_eq_zero.1 h2
        refine ⟨c, List.mem_cons_self c cs, hc, ?_⟩
        intro c' hc' hin'
        rcases List.mem_cons.1 hc' with h' | hmem
        · exact h'
        · exact absurd (List.mem_flatMap.2 ⟨c', hmem, hin'⟩) hnot
      · have h1 : (recordedIds c).count i = 0 := List.count_eq_zero.2 hc
        have h2 : (cs.flatMap recordedIds).count i = 1 := by omega
        obtain ⟨c0, hc0, hin0, huniq⟩ := ih h2
        refine ⟨c0, List.mem_cons_of_mem c hc0, hin0, ?_⟩
        intro c' hc' hin'
        rcases List.mem_cons.1 hc' with h' | hmem
        · exact absurd (h' ▸ hin') hc
        · exact huniq c' hmem hin'

/-- Two distinct list entries that both map to the same value make the
value occur at least twice in the filterMap. -/
theorem count_filterMap_two (f : Element → Option Str) (l : List Element)
    (a b : Element) (i : Str) (ha : a ∈ l) (hb : b ∈ l) (hne : a ≠ b)
    (hfa : f a = some i) (hfb : f b = some i) :
    2 ≤ (l.filterMap f).count i := by
  obtain ⟨s, t, rfl⟩ := List.append_of_mem hb
  have ha' : a ∈ s ∨ a ∈ t := by
    rcases List.mem_append.1 ha with h | h
    · exact Or.inl h
    · rcases List.mem_cons.1 h with h' | h'
      · exact absurd h' hne
      · exact Or.inr h'
  rw [List.filterMap_append, List.count_append, List.filterMap_cons, hfb]
  show 2 ≤ (s.filterMap f).count i + (i :: t.filterMap f).count i
  rcases ha' with h | h
  · have hs : 0 < (s.filterMap f).count i :=
      List.count_pos_iff.2 (List.mem_filterMap.2 ⟨a, h, hfa⟩)
    have hcons : 0 < (i :: t.filterMap f).count i := by
      rw [List.count_cons_self]
      omega
    omega
  · have ht : 0 < (t.filterMap f).count i :=
      List.count_pos_iff.2 (List.mem_filterMap.2 ⟨a, h, hfa⟩)
    rw [List.count_cons_self]
    omega

/-- Counterexample to C6 as stated: an element that declares the
identifier `p1` but has whitespace-only text is skipped entirely by
`HtmlTextSplitter.split`, which returns no chunk at all, so its
identifier is recorded in the metadata of no produced chunk rather
than of exactly one. -/
theorem claim_C6_counterexample :
    (⟨("p").data, some ("p1").data, (" ").data⟩ : Element).idAttr
        = some (("p1").data) ∧
      split 500 [⟨("p").data, some ("p1").data, (" ").data⟩] = [] := by
  constructor
  · rfl
  · decide

/-- C6 amended: every source element with non-empty stripped text whose
declared identifier is non-empty, comma-free (all collected identifiers
being comma-free so the comma-join encoding is lossless) and declared by
no other text-bearing element, has that identifier recorded in the
metadata of exactly one produced chunk — a chunk whose text contains
that element's text — and in no other chunk's metadata. -/
theorem claim_C6_amended (B : Nat) (es : List Element) (e : Element) (i : Str)
    (he : e ∈ es) (hid : e.idAttr = some i) (hine : i.isEmpty = false)
    (htext : (strip e.textContent).isEmpty = false)
    (hcommas : ∀ j ∈ collectIds es, ',' ∉ j)
    (hcount : (collectIds es).count i = 1) :
    ∃ c, c ∈ split B es ∧ i ∈ recordedIds c ∧
      (∃ l r, c.page_content = l ++ strip e.textContent ++ r) ∧
      ∀ c' ∈ split B es, i ∈ recordedIds c' → c' = c := by
  have hbag : (split B es).flatMap recordedIds = collectIds es := by
    have hb := splitLoop_recorded_bag B es [] [] [] []
      (by intro p hp; exact absurd hp (List.not_mem_nil p))
      hcommas (fun _ => rfl)
    simpa [split] using hb
  have hcnt : ((split B es).flatMap recordedIds).count i = 1 := by
    rw [hbag]
    exact hcount
  obtain ⟨c, hc, hin, huniq⟩ := count_one_unique i (split B es) hcnt
  obtain ⟨e', he', hid', htf', l, r, heq⟩ :=
    splitLoop_recorded_contain B es es [] [] [] []
      (by intro p hp; exact absurd hp (List.not_mem_nil p))
      hcommas
      (by intro c' hc'; exact absurd hc' (List.not_mem_nil c'))
      (by intro p hp; exact absurd hp (List.not_mem_nil p))
      (fun e' h => h) c hc i hin
  have hee : e' = e := by
    by_contra hne
    have h2 := count_filterMap_two collectFun es e' e i he' he hne
      (by unfold collectFun; rw [htf']; simp [hid', hine])
      (by unfold collectFun; rw [htext]; simp [hid, hine])
    rw [show es.filterMap collectFun = collectIds es from rfl, hcount] at h2
    omega
  subst hee
  exact ⟨c, hc, hin, ⟨l, r, heq⟩, huniq⟩

/-- Witness for the amended C6: a heading plus an identified paragraph
fit in one chunk; `p1` is recorded exactly once and the chunk text
contains the paragraph's text. -/
theorem claim_C6_amended_witness :
    ((⟨("p").data, some ("p1").data, ("Some text").data⟩ : Element)
        ∈ [(⟨("h1").data, none, ("Intro").data⟩ : Element),
            ⟨("p").data, some ("p1").data, ("Some text").data⟩] ∧
      (⟨("p").data, some ("p1").data, ("Some text").data⟩ : Element).idAttr
        = some (("p1").data) ∧
      ((("p1").data : Str)).isEmpty = false ∧
      (strip (("Some text").data)).isEmpty = false ∧
      (∀ j ∈ collectIds [(⟨("h1").data, none, ("Intro").data⟩ : Element),
          ⟨("p").data, some ("p1").data, ("Some text").data⟩], ',' ∉ j) ∧
      (collectIds [(⟨("h1").data, none, ("Intro").data⟩ : Element),
          ⟨("p").data, some ("p1").data, ("Some text").data⟩]).count (("p1").data)
        = 1) ∧
    ∃ c, c ∈ split 50 [(⟨("h1").data, none, ("Intro").data⟩ : Element),
          ⟨("p").data, some ("p1").data, ("Some text").data⟩] ∧
      ("p1").data ∈ recordedIds c ∧
      (∃ l r, c.page_content
        = l ++ strip ((⟨("p").data, some ("p1").data,
            ("Some text").data⟩ : Element).textContent) ++ r) ∧
      ∀ c' ∈ split 50 [(⟨("h1").data, none, ("Intro").data⟩ : Element),
          ⟨("p").data, some ("p1").data, ("Some text").data⟩],
        ("p1").data ∈ recordedIds c' → c' = c :=
  ⟨⟨by decide, by decide, by decide, by decide, by decide, by decide⟩,
    claim_C6_amended 50
      [⟨("h1").data, none, ("Intro").data⟩,
        ⟨("p").data, some ("p1").data, ("Some text").data⟩]
      ⟨("p").data, some ("p1").data, ("Some text").data⟩ (("p1").data)
      (by decide) (by decide) (by decide) (by decide) (by decide) (by decide)⟩

end HtmlTextSplitter
